/-
Verification of the cyclopts argument/group subsystem.

This file gives a shallow embedding, in Lean 4, of the functions of
src/cyclopts/argument.py and src/cyclopts/group.py that the claims
C1..C10 are about, and proves (or refutes) each claim against that
embedding.

Conventions of the embedding:
  * Python strings are Lean `String`s.  Because several core `String`
    operations in this toolchain are implemented by well-founded
    recursion (and therefore do not reduce in the kernel), the handful
    of string primitives the source uses (`startswith`, `endswith`,
    slicing, `split`) are re-implemented here over `String.data`
    (a `List Char`), with Python semantics.
  * Python `None` is `Option.none` / a dedicated `Value.none`
    constructor, depending on context.
  * A raised exception is an `Except.error`; the error type records
    exactly the information the raised Python exception carries.
  * Python type hints are modelled by the small closed universe `Hint`
    covering the shapes the claims exercise (bool, str, int, list,
    dict).  `get_origin`/nullary construction are modelled per hint.
-/
import Mathlib

namespace Cyclopts

/-! ### String primitives with Python semantics -/

/-- Python `s.startswith(p)`: `p.data` is a prefix of `s.data`. -/
def pyStartsWith (s p : String) : Bool :=
  p.data.isPrefixOf s.data

/-- Python `s.endswith(p)`: `p.data` is a suffix of `s.data`. -/
def pyEndsWith (s p : String) : Bool :=
  p.data.isSuffixOf s.data

/-- Python `s[:-n]` for `n ≤ len(s)`: drop the last `n` characters. -/
def pyDropRight (s : String) (n : Nat) : String :=
  String.mk (s.data.take (s.length - n))

/-- Python `s[n:]`: drop the first `n` characters. -/
def pyDrop (s : String) (n : Nat) : String :=
  String.mk (s.data.drop n)

/-- Split a character list on every occurrence of `d` (Python
`str.split` with a one-character separator; `"".split(d) == [""]`). -/
def splitOnCharList (d : Char) : List Char → List (List Char)
  | [] => [[]]
  | c :: cs =>
    match splitOnCharList d cs with
    | [] => [[]]
    | r :: rs => if c = d then [] :: r :: rs else (c :: r) :: rs

/-- Python `s.split(d)` for a one-character separator `d`. -/
def pySplit (s : String) (d : Char) : List String :=
  (splitOnCharList d s.data).map String.mk

/-- Python `s.lstrip("-")`: drop all leading dash characters. -/
def pyLstripDash (s : String) : String :=
  String.mk (s.data.dropWhile (· = '-'))

/-! ### Value and hint universe

`Argument._match_name` produces implicit values that are either Python
`None`, `True` (for a `bool` hint), or the nullary call
`(get_origin(self.hint) or self.hint)()` of the hint; `Value` covers
exactly those shapes for the hints in the model. -/

/-- Implicit values produced by the matching code. -/
inductive Value where
  | pynone
  | bool (b : Bool)
  | int (n : Int)
  | str (s : String)
  | emptyList
  | emptyDict
deriving DecidableEq, Repr

/-- Closed universe of (resolved, non-annotated, non-union) type hints
covering the shapes the claims exercise.  `listOf`/`dictOf` stand for
subscripted `list[...]`/`dict[...,...]` hints, whose
`typing.get_origin` is the builtin `list`/`dict`. -/
inductive Hint where
  | bool
  | int
  | str
  | listOf (elem : Hint)
  | dictOf (key val : Hint)
deriving DecidableEq, Repr

/-- `(get_origin(self.hint) or self.hint)()` — call the hint's origin
type (or the hint itself when it has no origin) with no arguments:
`bool() == False`, `int() == 0`, `str() == ""`, `list() == []`,
`dict() == {}`. -/
def hintNullaryCall : Hint → Value
  | .bool => .bool false
  | .int => .int 0
  | .str => .str ""
  | .listOf _ => .emptyList
  | .dictOf _ _ => .emptyDict

/-- The five `inspect.Parameter` kinds. -/
inductive ParamKind where
  | positionalOnly
  | positionalOrKeyword
  | varPositional
  | keywordOnly
  | varKeyword
deriving DecidableEq, Repr

/-- The slice of `Argument` state that its matching methods read:
`cparam.name` (resolved, non-empty by the source's assert),
`cparam.get_negatives(self.hint)` (computed by `Parameter`, which is
outside the given sources; carried here as data), the resolved hint,
`iparam.kind` and the positional `index`.  `assignable` mirrors
`Argument._assignable`. -/
structure ArgModel where
  names : List String
  negatives : List String
  hint : Hint
  kind : ParamKind
  index : Option Nat
  assignable : Bool
deriving DecidableEq, Repr

/-- `Argument.accepts_arbitrary_keywords` (src/cyclopts/argument.py:336):
assignable and the hint is dictionary-shaped.  (Union hints are not in
the model's hint universe, so the source's quantification over union
members reduces to checking the hint itself.) -/
def acceptsArbitraryKeywords (a : ArgModel) : Bool :=
  a.assignable && match a.hint with
    | .dictOf _ _ => true
    | _ => false

/-- `if transform: name = transform(name)`. -/
def applyTransform (t : Option (String → String)) (n : String) : String :=
  match t with
  | none => n
  | some f => f n

/-! ### `Argument._match_name` (src/cyclopts/argument.py:376) -/

/-- Outcome of one of the two `for ... else` loops in `_match_name`:
`exact` for the in-loop `return (), implicit_value`, `broke` for the
`break` after consuming the delimiter, `fell` for running off the end
of the loop. -/
inductive ScanResult where
  | exact (v : Value)
  | broke (trailing : String) (v : Value)
  | fell
deriving DecidableEq, Repr

/-- One `for name in names:` loop of `_match_name`: names are tried in
order; a name that is not a prefix of `term`, or leaves a trailing rest
that does not start with the delimiter, is skipped. -/
def scanNames (implicit : Value) (transform : Option (String → String)) (delim : Char)
    (term : String) : List String → ScanResult
  | [] => .fell
  | n :: rest =>
    let name := applyTransform transform n
    if pyStartsWith term name then
      let trailing := pyDrop term name.length
      if trailing = "" then .exact implicit
      else if trailing.data.head? = some delim then .broke (pyDrop trailing 1) implicit
      else scanNames implicit transform delim term rest
    else scanNames implicit transform delim term rest

/-- `Argument._match_name(term, transform=..., delimiter=...)`
(src/cyclopts/argument.py:376).  The delimiter is modelled as a single
character (the source's default is `"."`).  A var-keyword node strips
leading dashes and splits on the delimiter; otherwise the positive
names are scanned with implicit value `True if self.hint is bool else
None`, then — only when that loop falls through — the negative names
are scanned with implicit value `(get_origin(self.hint) or
self.hint)()`; a delimiter-break match is only accepted when the node
accepts arbitrary keywords.  `Except.error` is the raised
`ValueError`. -/
def matchName (a : ArgModel) (term : String) (transform : Option (String → String))
    (delim : Char) : Except Unit (List String × Value) :=
  if a.kind = .varKeyword then
    .ok (pySplit (pyLstripDash term) delim, .pynone)
  else
    match scanNames (if a.hint = .bool then .bool true else .pynone) transform delim term a.names with
    | .exact v => .ok ([], v)
    | .broke trailing v =>
      if acceptsArbitraryKeywords a then .ok (pySplit trailing delim, v) else .error ()
    | .fell =>
      match scanNames (hintNullaryCall a.hint) transform delim term a.negatives with
      | .exact v => .ok ([], v)
      | .broke trailing v =>
        if acceptsArbitraryKeywords a then .ok (pySplit trailing delim, v) else .error ()
      | .fell => .error ()

/-! ### `Argument._match_index` (src/cyclopts/argument.py:452) -/

/-- The source line 453 tests
`self.iparam in (self.iparam.KEYWORD_ONLY, self.iparam.VAR_KEYWORD)`.
That membership compares the `inspect.Parameter` object itself (not its
`.kind`) against `_ParameterKind` enum members, which is never true, so
the test is constantly `False` at runtime. -/
def iparamMemberOfKinds (_a : ArgModel) : Bool :=
  false

/-- `Argument._match_index(index)` (src/cyclopts/argument.py:452): no
positional index means no match; the keyword-only/var-keyword guard is
the (vacuous) object-against-kind membership above; a var-positional
node matches any index not below its own; otherwise only the exact
index matches. -/
def matchIndex (a : ArgModel) (index : Nat) : Except Unit (List String × Value) :=
  match a.index with
  | none => .error ()
  | some si =>
    if iparamMemberOfKinds a then .error ()
    else if a.kind = .varPositional then
      if index < si then .error () else .ok ([], .pynone)
    else if index ≠ si then .error ()
    else .ok ([], .pynone)

/-- A search term is a keyword string or a positional index. -/
inductive Term where
  | str (s : String)
  | idx (n : Nat)
deriving DecidableEq, Repr

/-- `Argument.match(term, ...)` (src/cyclopts/argument.py:351): raises
for a non-assignable node, otherwise dispatches on the type of the
term. -/
def argumentMatch (a : ArgModel) (t : Term) (transform : Option (String → String))
    (delim : Char) : Except Unit (List String × Value) :=
  if ¬ a.assignable then .error ()
  else match t with
    | .idx n => matchIndex a n
    | .str s => matchName a s transform delim

/-! ### `_resolve_parameter_name` (src/cyclopts/argument.py:1012) -/

/-- The per-parent-name prefix normalization inside
`_resolve_parameter_name`: `if not a1: a1 = "--"` and
`elif not a1.endswith("."): a1 += "."`. -/
def normParentName (a1 : String) : String :=
  if a1 = "" then "--" else if pyEndsWith a1 "." then a1 else a1 ++ "."

/-- One combining pass of `_resolve_parameter_name`: for every name in
`a1s`, keep it if it ends with `*` (dropping the star) or starts with
`-` (skip it otherwise), normalize it into a dotted prefix, and attach
every name of `a2s` that does not itself start with `-` (dash-leading
child names pass through unchanged). -/
def resolveNameStep (a1s a2s : List String) : List String :=
  a1s.flatMap fun a1 =>
    let kept : Option String :=
      if pyEndsWith a1 "*" then some (pyDropRight a1 1)
      else if pyStartsWith a1 "-" then some a1
      else none
    match kept with
    | none => []
    | some a1 =>
      let p := normParentName a1
      a2s.map fun a2 => if pyStartsWith a2 "-" then a2 else p ++ a2

/-- Tail of `_resolve_parameter_name`: repeatedly combine the
accumulated first tuple with the next tuple (the Python function
recurses as `_resolve_parameter_name(tuple(out), *argss[2:])`). -/
def resolveNameFold (acc : List String) : List (List String) → List String
  | [] => acc
  | a2s :: rest => resolveNameFold (resolveNameStep acc a2s) rest

/-- `_resolve_parameter_name(*argss)` (src/cyclopts/argument.py:1012):
combines successive name tuples left to right by `resolveNameStep`;
an empty argument list yields the empty tuple and a single tuple is
returned unchanged. -/
def resolveParameterName : List (List String) → List String
  | [] => []
  | a1s :: rest => resolveNameFold a1s rest

/-! ### `Argument.append` (src/cyclopts/argument.py:462) -/

/-- The slice of `Token` state that `Argument.append` reads: the
nested-field key path and the disambiguating index.  (`keyword`,
`value`, `source` and `implicit_value` play no role in `append`'s
checks and are omitted.) -/
structure TokenS where
  keys : List String
  index : Nat
deriving DecidableEq, Repr

/-- The two exceptions `Argument.append` can raise. -/
inductive AppendErr where
  | repeatArgument
  | mixedArgument
deriving DecidableEq, Repr

/-- `Argument.append(token)` (src/cyclopts/argument.py:462) for an
assignable Argument.  `consumeAll keys` stands for
`self.token_count(keys)[1]`, the coercion engine's "this hint consumes
an unbounded run of tokens" bit (the engine lives outside the given
sources as `cyclopts._convert.token_count`; the claim only constrains
`append`'s use of that bit, so it is a parameter of the model).
A duplicate `(keys, index)` on a non-unbounded hint raises
`RepeatArgumentError`; then, if any tokens are already held, a
keyed/keyless style mismatch raises `MixedArgumentError`; otherwise the
token is appended. -/
def appendToken (consumeAll : List String → Bool) (tokens : List TokenS) (tok : TokenS) :
    Except AppendErr (List TokenS) :=
  if (tokens.any fun x => x.keys = tok.keys && x.index = tok.index) && !consumeAll tok.keys then
    .error .repeatArgument
  else if !tokens.isEmpty && (!tok.keys.isEmpty).xor (tokens.any fun x => !x.keys.isEmpty) then
    .error .mixedArgument
  else
    .ok (tokens ++ [tok])

/-! ### `ArgumentCollection.match` (src/cyclopts/argument.py:615) -/

/-- One step of the best-candidate loop in `ArgumentCollection.match`:
`best` is `None` or the current `(argument, match_keys, implicit_value)`;
the incoming candidate replaces it when there is no best yet or its
leftover-key list is strictly shorter. -/
def betterCandidate {α : Type} (best : Option (α × List String × Value))
    (cand : α × List String × Value) : Option (α × List String × Value) :=
  match best with
  | none => some cand
  | some (b, bk, bv) =>
    if cand.2.1.length < bk.length then some cand else some (b, bk, bv)

/-- The `for argument in self:` loop of `ArgumentCollection.match`:
arguments whose `match` raises are skipped; a successful candidate may
replace the best; an empty leftover-key list breaks the loop
immediately after the replacement test. -/
def collectionMatchLoop {α : Type} (matchFn : α → Except Unit (List String × Value)) :
    List α → Option (α × List String × Value) → Option (α × List String × Value)
  | [], best => best
  | a :: rest, best =>
    match matchFn a with
    | .error _ => collectionMatchLoop matchFn rest best
    | .ok (keys, v) =>
      let best' := betterCandidate best (a, keys, v)
      if keys.isEmpty then best' else collectionMatchLoop matchFn rest best'

/-- `ArgumentCollection.match(term, ...)` (src/cyclopts/argument.py:615),
abstracted over the per-argument matcher (`argumentMatch a term ...` in
the concrete instance): runs the loop from an empty best candidate and
raises `ValueError` when nothing matched. -/
def collectionMatch {α : Type} (matchFn : α → Except Unit (List String × Value))
    (arguments : List α) : Except Unit (α × List String × Value) :=
  match collectionMatchLoop matchFn arguments none with
  | none => .error ()
  | some out => .ok out

/-! ### Groups (src/cyclopts/group.py)

Sort keys are modelled as already resolved (`resolve_callables` is the
identity on non-callable keys, and the claims quantify over resolved
keys).  Python's `sort` raises `TypeError` on cross-type comparisons;
the model's order totalizes the per-type orders with a constructor
rank, and agrees with Python wherever Python's comparison is defined. -/

/-- Atoms inside an iterable sort key: the `NO_USER_SORT_KEY` sentinel
class, Python `None`, integers, strings.  (The model flattens iterable
sort keys to tuples of atoms; nested iterables are outside it.) -/
inductive SAtom where
  | pynone
  | sentinel
  | int (n : Int)
  | str (s : String)
deriving DecidableEq, Repr

/-- A `Group._sort_key` value after the attrs converter (which maps a
user `None` to the `NO_USER_SORT_KEY` sentinel): the sentinel itself, a
scalar, or an iterable (tuple) of atoms. -/
inductive SKey where
  | sentinel
  | atom (a : SAtom)
  | tup (xs : List SAtom)
deriving DecidableEq, Repr

/-- `Group` (src/cyclopts/group.py:37): the attrs-generated class with
fields `name`, `help`, `_show`, `_sort_key`, `validator` (normalized to
a tuple of callables, carried as opaque handles) and
`default_parameter` (opaque handle).  `showOpt` is the private `_show`
tri-state. -/
structure Group where
  name : String
  help : String
  showOpt : Option Bool
  sortKey : SKey
  validator : List Nat
  defaultParameter : Option Nat
deriving DecidableEq, Repr

/-- Comparability rank of an atom (used to totalize the order). -/
def SAtom.rank : SAtom → Nat
  | .pynone => 0
  | .sentinel => 1
  | .int _ => 2
  | .str _ => 3

/-- Python string comparison on characters: by code point. -/
def charLe (a b : Char) : Bool :=
  decide (a.toNat ≤ b.toNat)

/-- Lexicographic list order built from an element order, recursing on
equal heads (Python tuple/string comparison). -/
def lexIfEq {β : Type} [DecidableEq β] (le : β → β → Bool) : List β → List β → Bool
  | [], _ => true
  | _ :: _, [] => false
  | a :: as, b :: bs => if a = b then lexIfEq le as bs else le a b

/-- Python string order: lexicographic by code point. -/
def strLe (s t : String) : Bool :=
  lexIfEq charLe s.data t.data

/-- Order on sort-key atoms: per-type Python order, totalized by rank
across types. -/
def SAtom.le (a b : SAtom) : Bool :=
  match a, b with
  | .int m, .int n => decide (m ≤ n)
  | .str s, .str t => strLe s t
  | _, _ => decide (a.rank ≤ b.rank)

/-- Comparability rank of a sort key. -/
def SKey.rank : SKey → Nat
  | .sentinel => 0
  | .atom _ => 1
  | .tup _ => 2

/-- Order on sort keys: scalars by atom order, tuples lexicographically,
totalized by rank across shapes. -/
def SKey.le (a b : SKey) : Bool :=
  match a, b with
  | .atom x, .atom y => SAtom.le x y
  | .tup xs, .tup ys => lexIfEq SAtom.le xs ys
  | _, _ => decide (a.rank ≤ b.rank)

/-- Lexicographic pair order from two component orders (Python tuple
comparison for a two-tuple). -/
def pairLe {β γ : Type} [DecidableEq β] (le1 : β → β → Bool) (le2 : γ → γ → Bool)
    (p q : β × γ) : Bool :=
  if p.1 = q.1 then le2 p.2 q.2 else le1 p.1 q.1

/-- `sort_key in (NO_USER_SORT_KEY, None)` — the tier of groups with no
sort key at all (src/cyclopts/group.py:137). -/
def isTierC (k : SKey) : Bool :=
  k = SKey.sentinel || k = SKey.atom .pynone

/-- `is_iterable(sort_key) and sort_key[0] in (NO_USER_SORT_KEY, None)`
— the tier of iterable keys led by the sentinel
(src/cyclopts/group.py:139).  An empty tuple would make Python raise
`IndexError` on `sort_key[0]`; `sortGroups` guards it separately. -/
def isTierB (k : SKey) : Bool :=
  match k with
  | .tup (x :: _) => x = SAtom.sentinel || x = SAtom.pynone
  | _ => false

/-- The `sort_key_panels` bucket: concrete, non-sentinel leading keys
with panel key `(sort_key, group.name)`. -/
def tierAPanels {A : Type} (pairs : List (Group × A)) :
    List ((SKey × String) × (Group × A)) :=
  pairs.filterMap fun p =>
    if isTierC p.1.sortKey then none
    else if isTierB p.1.sortKey then none
    else some ((p.1.sortKey, p.1.name), p)

/-- The `ordered_no_user_sort_key_panels` bucket: panel key
`sort_key[1:] + (group.name,)`. -/
def tierBPanels {A : Type} (pairs : List (Group × A)) :
    List (List SAtom × (Group × A)) :=
  pairs.filterMap fun p =>
    if isTierC p.1.sortKey then none
    else match p.1.sortKey with
      | .tup (x :: rest) =>
        if x = SAtom.sentinel || x = SAtom.pynone then
          some (rest ++ [SAtom.str p.1.name], p)
        else none
      | _ => none

/-- The `no_user_sort_key_panels` bucket: panel key `(group.name,)`. -/
def tierCPanels {A : Type} (pairs : List (Group × A)) :
    List (String × (Group × A)) :=
  pairs.filterMap fun p =>
    if isTierC p.1.sortKey then some (p.1.name, p) else none

/-- Sorting relation for the `sort_key_panels` bucket. -/
def tierARel {A : Type} (p q : (SKey × String) × (Group × A)) : Prop :=
  pairLe SKey.le strLe p.1 q.1 = true

/-- Sorting relation for the `ordered_no_user_sort_key_panels` bucket. -/
def tierBRel {A : Type} (p q : List SAtom × (Group × A)) : Prop :=
  lexIfEq SAtom.le p.1 q.1 = true

/-- Sorting relation for the `no_user_sort_key_panels` bucket. -/
def tierCRel {A : Type} (p q : String × (Group × A)) : Prop :=
  strLe p.1 q.1 = true

instance {A : Type} : DecidableRel (tierARel (A := A)) := fun p q => by
  unfold tierARel
  infer_instance

instance {A : Type} : DecidableRel (tierBRel (A := A)) := fun p q => by
  unfold tierBRel
  infer_instance

instance {A : Type} : DecidableRel (tierCRel (A := A)) := fun p q => by
  unfold tierCRel
  infer_instance

/-- `sort_groups(groups, attributes)` (src/cyclopts/group.py:116):
asserts equal lengths, returns empty inputs unchanged, buckets the
zipped pairs into the three panel lists, sorts each bucket ascending by
its panel key, concatenates in the order
`sort_key_panels + ordered_no_user_sort_key_panels +
no_user_sort_key_panels`, and unzips.  `Except.error` covers the
source's failure modes on malformed input: the length assert and the
`IndexError` from `sort_key[0]` on an empty-tuple sort key. -/
def sortGroups {A : Type} (groups : List Group) (attributes : List A) :
    Except Unit (List Group × List A) :=
  if groups.length ≠ attributes.length then .error ()
  else if groups.isEmpty then .ok (groups, attributes)
  else
    let pairs := groups.zip attributes
    if pairs.any fun p => p.1.sortKey = SKey.tup [] then .error ()
    else
      let sortedA := (List.insertionSort tierARel (tierAPanels pairs)).map (·.2)
      let sortedB := (List.insertionSort tierBRel (tierBPanels pairs)).map (·.2)
      let sortedC := (List.insertionSort tierCRel (tierCPanels pairs)).map (·.2)
      let combined := sortedA ++ sortedB ++ sortedC
      .ok (combined.map (·.1), combined.map (·.2))

/-- `Group.create_ordered(*args, sort_key=None, **kwargs)`
(src/cyclopts/group.py:99) for a scalar-or-absent user sort key: the
process-wide counter value is passed explicitly (`count`); no user key
yields `(NO_USER_SORT_KEY, count)`, a scalar key is prepended as
`(key, count)`. -/
def createOrdered (name : String) (userKey : Option SAtom) (count : Nat) : Group :=
  { name := name, help := "", showOpt := none,
    sortKey := match userKey with
      | none => .tup [.sentinel, .int count]
      | some a => .tup [a, .int count],
    validator := [], defaultParameter := none }

/-- The attrs-generated `Group.__eq__`: structural comparison of the
full field tuple `(name, help, _show, _sort_key, validator,
default_parameter)` — the class declares no custom `__eq__`. -/
def groupEqPy (a b : Group) : Bool :=
  decide (a.name = b.name) && decide (a.help = b.help) &&
    decide (a.showOpt = b.showOpt) && decide (a.sortKey = b.sortKey) &&
    decide (a.validator = b.validator) && decide (a.defaultParameter = b.defaultParameter)

/-- One step of the Group-instance resolution loop of
`_resolve_groups_from_callable` (src/cyclopts/argument.py:976-992):
object identity is modelled by a numeric id attached to each Group.  A
distinct (different id) already-resolved Group with the same name
raises `ValueError`; a same-named entry otherwise means the group is
already registered and is skipped; else the group is appended.  (The
`default_parameter.group` re-check is unreachable by the source's own
`Group` construction-time validation and is omitted.) -/
def registerGroup (resolved : List (Nat × Group)) (gid : Nat) (g : Group) :
    Except Unit (List (Nat × Group)) :=
  if resolved.any fun x => x.1 ≠ gid && x.2.name = g.name then .error ()
  else if resolved.any fun x => x.2.name = g.name then .ok resolved
  else .ok (resolved ++ [(gid, g)])

/-! ### `ArgumentCollection.filter_by` (src/cyclopts/argument.py:905) -/

/-- The token-bearing slice of an `Argument` subtree: the directly held
tokens, the key path into the root parameter, and the child Arguments
(`Argument.children`). -/
inductive ArgT where
  | node (tokens : List TokenS) (keys : List String) (children : List ArgT)

/-- Direct tokens of a node. -/
def ArgT.tokens : ArgT → List TokenS
  | .node t _ _ => t

/-- Key path of a node. -/
def ArgT.keys : ArgT → List String
  | .node _ k _ => k

mutual

/-- `Argument.n_tree_tokens` (src/cyclopts/argument.py:479): direct
token count plus the subtree counts of all children. -/
def nTreeTokens : ArgT → Nat
  | .node tokens _ children => tokens.length + nTreeTokensList children

/-- Sum of `n_tree_tokens` over a child list. -/
def nTreeTokensList : List ArgT → Nat
  | [] => 0
  | c :: cs => nTreeTokens c + nTreeTokensList cs

end

/-- `ArgumentCollection.filter_by` (src/cyclopts/argument.py:905),
restricted to the predicates that read only token/key state
(`has_tokens`, `has_tree_tokens`, `keys_prefix`; the `group`, `kind`,
`show` and `value_set` predicates read `Parameter`/`Group`/conversion
state outside this model).  Each supplied (non-`None`) predicate is
applied in turn.  NOTE (faithful to line 944): the `has_tree_tokens`
filter tests `bool(x.tokens)` — the node's direct tokens — exactly
like `has_tokens` on line 942, not `x.n_tree_tokens`. -/
def filterBy (ac : List ArgT) (hasTokens : Option Bool) (hasTreeTokens : Option Bool)
    (keysPref : Option (List String)) : List ArgT :=
  let ac1 := match hasTokens with
    | none => ac
    | some b => ac.filter fun x => !((!x.tokens.isEmpty).xor b)
  let ac2 := match hasTreeTokens with
    | none => ac1
    | some b => ac1.filter fun x => !((!x.tokens.isEmpty).xor b)
  match keysPref with
  | none => ac2
  | some pre => ac2.filter fun x => x.keys.take pre.length = pre

/-- An Argument with no direct tokens whose only child holds one
token: its subtree has a token, itself does not. -/
def parentArg : ArgT :=
  .node [] [] [.node [{ keys := [], index := 0 }] ["sub"] []]

/-! ### `_validate_typed_dict` (src/cyclopts/argument.py:79) -/

/-- A type hint as seen by the structural-record validator: either a
TypedDict with named fields — each carrying its required flag (from
`__required_keys__`/`__optional_keys__`) and its own hint — or any
other hint (`base`), into which the validator does not recurse. -/
inductive TDType where
  | base
  | td (fields : List (String × Bool × TDType))

/-- Parsed data handed to the validator: a mapping (dict) with ordered
entries, or a non-mapping value. -/
inductive PyData where
  | atom
  | obj (entries : List (String × PyData))

/-- `is_typeddict` as the validator's recursion guard sees it. -/
def TDType.isTypedDict : TDType → Bool
  | .td _ => true
  | .base => false

/-- What `_validate_typed_dict` can raise, carrying exactly what the
Python exception carries: `CoercionError(msg=...)` naming the single
extra key or the extra key set; the bare `raise ValueError` placeholder
of the missing-required branch (no message — the dot-joined prefix is
computed and then discarded); `KeyError` from `data[field_name]` on an
absent optional nested field; a type failure when a nested value is not
a mapping. -/
inductive VErr where
  | coercionKeySingular (key : String)
  | coercionKeysPlural (keys : List String)
  | bareValueError
  | keyError (key : String)
  | notAMapping
deriving DecidableEq, Repr

mutual

/-- `_validate_typed_dict(typed_dict, data, _key_chain)`
(src/cyclopts/argument.py:79): rejects data keys outside the declared
field set (singular/plural message), then rejects missing
declared-required fields — with the bare placeholder error the source
raises there — then recurses into TypedDict-hinted fields with the
field name appended to the key chain. -/
def validateTypedDict : TDType → PyData → List String → Except VErr Unit
  | .base, _, _ => .ok ()
  | .td _, .atom, _ => .error .notAMapping
  | .td fields, .obj entries, keyChain =>
    let dataKeys := entries.map (·.1)
    let annKeys := fields.map (·.1)
    match dataKeys.filter fun k => !annKeys.contains k with
    | [k] => .error (.coercionKeySingular k)
    | [] =>
      let requiredKeys := (fields.filter fun f => f.2.1).map (·.1)
      if (requiredKeys.filter fun k => !dataKeys.contains k).isEmpty then
        validateFields fields entries keyChain
      else
        .error .bareValueError
    | ks => .error (.coercionKeysPlural ks)

/-- The recursion loop
`for field_name, hint in typed_dict.__annotations__.items()` of
`_validate_typed_dict`. -/
def validateFields : List (String × Bool × TDType) → List (String × PyData) → List String →
    Except VErr Unit
  | [], _, _ => .ok ()
  | (name, _, hint) :: rest, entries, keyChain =>
    if hint.isTypedDict then
      match List.lookup name entries with
      | none => .error (.keyError name)
      | some v =>
        match validateTypedDict hint v (keyChain ++ [name]) with
        | .error e => .error e
        | .ok _ => validateFields rest entries keyChain
    else
      validateFields rest entries keyChain

end

/-- TypedDict `Inner` with one required field `b` of a plain hint. -/
def innerTD : TDType := .td [("b", true, .base)]

/-- TypedDict `Outer` with one required field `a` of type `Inner`. -/
def outerTD : TDType := .td [("a", true, innerTD)]

/-- The panel key a group contributes in the
`ordered_no_user_sort_key_panels` bucket: the sort key without its
leading sentinel, with the group name appended
(`sort_key[1:] + (group.name,)`). -/
def tierBKey (g : Group) : List SAtom :=
  (match g.sortKey with
    | .tup (_ :: rest) => rest
    | _ => []) ++ [SAtom.str g.name]

/-- A group with no user sort key, named Zeta. -/
def gZeta : Group :=
  { name := "Zeta", help := "", showOpt := none, sortKey := .sentinel,
    validator := [], defaultParameter := none }

/-- A group with no user sort key, named Alpha. -/
def gAlpha : Group :=
  { name := "Alpha", help := "", showOpt := none, sortKey := .sentinel,
    validator := [], defaultParameter := none }

/-! ### Concrete arguments used as witness inputs -/

/-- A boolean `--flag` argument with the default negative spelling. -/
def flagArg : ArgModel :=
  { names := ["--flag"], negatives := ["--no-flag"], hint := .bool,
    kind := .positionalOrKeyword, index := some 0, assignable := true }

/-- A `list[int]` argument `--xs` with negative spelling `--empty-xs`. -/
def listArg : ArgModel :=
  { names := ["--xs"], negatives := ["--empty-xs"], hint := .listOf .int,
    kind := .positionalOrKeyword, index := some 1, assignable := true }

/-! ### Hypothesis shapes for the `_match_name` claims -/

/-- Scanning name `name` against `term` does not hit the
delimiter-`break` branch: whenever `name` is a proper prefix of `term`,
the rest does not start with the delimiter. -/
def nameNoDelimBreak (delim : Char) (term name : String) : Prop :=
  pyStartsWith term name = true → pyDrop term name.length ≠ "" →
    (pyDrop term name.length).data.head? ≠ some delim

/-- Scanning name `name` against `term` falls through (no exact match,
no delimiter break): if `name` is a prefix of `term` at all, a
non-delimiter rest remains. -/
def nameFallsThrough (delim : Char) (term name : String) : Prop :=
  pyStartsWith term name = true →
    pyDrop term name.length ≠ "" ∧
      (pyDrop term name.length).data.head? ≠ some delim

instance (delim : Char) (term name : String) :
    Decidable (nameNoDelimBreak delim term name) := by
  unfold nameNoDelimBreak
  infer_instance

instance (delim : Char) (term name : String) :
    Decidable (nameFallsThrough delim term name) := by
  unfold nameFallsThrough
  infer_instance

/-! ### Theorems -/

/-- Helper: a string that starts with a dash is nonempty. -/
theorem pyStartsWith_dash_ne_empty {p : String} (h : pyStartsWith p "-" = true) :
    p ≠ "" := by
  intro he
  subst he
  simp [pyStartsWith, List.isPrefixOf] at h

/-- C4 counterexample: the claim that combining parent `("*",)` with
child `("bar",)` yields `("bar",)` unprefixed is false — the code
yields `("--bar",)` — and the claim that a dash-leading child name is
passed through regardless of the parent names is false — a parent name
that neither starts with `-` nor ends with `*` is filtered out, so
parent `("foo",)` with child `("-v",)` yields the empty tuple. -/
theorem resolveParameterName_claim_cex :
    resolveParameterName [["*"], ["bar"]] = ["--bar"] ∧
    resolveParameterName [["*"], ["bar"]] ≠ ["bar"] ∧
    resolveParameterName [["foo"], ["-v"]] = [] ∧
    resolveParameterName [["foo"], ["-v"]] ≠ ["-v"] := by
  refine ⟨by decide, by decide, by decide, by decide⟩

/-- C4 (amended): combining parent `("--foo.",)` with child `("bar",)`
yields `("--foo.bar",)` (generalized: any dash-leading, dot-terminated,
non-wildcard parent name concatenates with any non-dash child name);
combining the wildcard parent `("*",)` with child `("bar",)` yields
`("--bar",)` — the wildcard is reduced to the bare `--` prefix, not
dropped; and a child name that already starts with `-` is passed
through unprefixed once per parent name that survives filtering (ends
with `*` or starts with `-`), so parents with no surviving names
contribute nothing. -/
theorem resolveParameterName_spec :
    (∀ p c, pyStartsWith p "-" = true → pyEndsWith p "*" = false →
       pyEndsWith p "." = true → pyStartsWith c "-" = false →
       resolveParameterName [[p], [c]] = [p ++ c]) ∧
    (∀ c, pyStartsWith c "-" = false →
       resolveParameterName [["*"], [c]] = ["--" ++ c]) ∧
    (∀ a1s c, pyStartsWith c "-" = true →
       resolveParameterName [a1s, [c]] =
         (a1s.filter fun a => pyEndsWith a "*" || pyStartsWith a "-").map fun _ => c) := by
  refine ⟨?_, ?_, ?_⟩
  · intro p c hs he hd hc
    simp [resolveParameterName, resolveNameFold, resolveNameStep, normParentName,
      hs, he, hd, hc, pyStartsWith_dash_ne_empty hs]
  · intro c hc
    have h1 : normParentName (pyDropRight "*" 1) = "--" := by decide
    have h2 : pyEndsWith "*" "*" = true := by decide
    simp [resolveParameterName, resolveNameFold, resolveNameStep, hc, h1, h2]
  · intro a1s c hc
    induction a1s with
    | nil => rfl
    | cons a rest ih =>
      by_cases hstar : pyEndsWith a "*" = true
      · simpa [resolveParameterName, resolveNameFold, resolveNameStep, hstar, hc] using ih
      · by_cases hdash : pyStartsWith a "-" = true
        · simpa [resolveParameterName, resolveNameFold, resolveNameStep, hstar, hdash, hc] using ih
        · simpa [resolveParameterName, resolveNameFold, resolveNameStep, hstar, hdash, hc] using ih

/-- Helper: every string is a prefix of itself. -/
theorem pyStartsWith_self (s : String) : pyStartsWith s s = true := by
  simp [pyStartsWith, List.isPrefixOf_iff_prefix]

/-- Helper: dropping a string's own length leaves the empty string. -/
theorem pyDrop_self (s : String) : pyDrop s s.length = "" := by
  have h : s.data.drop s.length = [] := List.drop_length s.data
  unfold pyDrop
  rw [h]

/-- Helper: a prefix that leaves no rest is the whole string. -/
theorem eq_of_startsWith_drop_empty {t n : String} (h1 : pyStartsWith t n = true)
    (h2 : pyDrop t n.length = "") : n = t := by
  have hp : n.data <+: t.data := List.isPrefixOf_iff_prefix.mp h1
  have hlen : t.length ≤ n.length := by
    have hd : t.data.drop n.length = [] := congrArg String.data h2
    simpa using List.drop_eq_nil_iff.mp hd
  cases n
  cases t
  exact congrArg String.mk (List.IsPrefix.eq_of_length_le hp hlen)

/-- Helper: a name list containing an exact spelling of `term`, and
never hitting the delimiter break, makes the scan return the in-loop
exact result. -/
theorem scanNames_exact (impl : Value) {transform : Option (String → String)} {delim : Char}
    {term : String} {names : List String}
    (hmem : ∃ n ∈ names, applyTransform transform n = term)
    (hnb : ∀ n ∈ names, nameNoDelimBreak delim term (applyTransform transform n)) :
    scanNames impl transform delim term names = .exact impl := by
  induction names with
  | nil => simp at hmem
  | cons n rest ih =>
    obtain ⟨m, hm, hmt⟩ := hmem
    by_cases hpre : pyStartsWith term (applyTransform transform n) = true
    · by_cases htr : pyDrop term (applyTransform transform n).length = ""
      · simp [scanNames, hpre, htr]
      · have hnd := hnb n (List.mem_cons_self n rest) hpre htr
        have hmem' : ∃ m ∈ rest, applyTransform transform m = term := by
          rcases List.mem_cons.mp hm with rfl | hm'
          · exact absurd (by rw [hmt]; exact pyDrop_self term) htr
          · exact ⟨m, hm', hmt⟩
        simpa [scanNames, hpre, htr, hnd] using
          ih hmem' fun x hx => hnb x (List.mem_cons_of_mem n hx)
    · have hmem' : ∃ m ∈ rest, applyTransform transform m = term := by
        rcases List.mem_cons.mp hm with rfl | hm'
        · exact absurd (by rw [hmt]; exact pyStartsWith_self term) hpre
        · exact ⟨m, hm', hmt⟩
      simpa [scanNames, hpre] using
        ih hmem' fun x hx => hnb x (List.mem_cons_of_mem n hx)

/-- Helper: a name list all of whose names fall through makes the scan
run off the end of the loop. -/
theorem scanNames_fell (impl : Value) {transform : Option (String → String)} {delim : Char}
    {term : String} {names : List String}
    (h : ∀ n ∈ names, nameFallsThrough delim term (applyTransform transform n)) :
    scanNames impl transform delim term names = .fell := by
  induction names with
  | nil => rfl
  | cons n rest ih =>
    by_cases hpre : pyStartsWith term (applyTransform transform n) = true
    · obtain ⟨htr, hnd⟩ := h n (List.mem_cons_self n rest) hpre
      simpa [scanNames, hpre, htr, hnd] using
        ih fun x hx => h x (List.mem_cons_of_mem n hx)
    · simpa [scanNames, hpre] using
        ih fun x hx => h x (List.mem_cons_of_mem n hx)

/-- C3: for a leaf (non-var-keyword) Argument, matching a term that is
an exact spelling of a configured positive name returns zero leftover
keys and implicit value `True` exactly when the hint is `bool` (no
implicit value otherwise); when every positive name falls through,
matching an exact spelling of a configured negative name returns zero
leftover keys and the nullary call of the hint's origin type (or the
hint itself) — boolean `False` for a `bool` hint and the empty list
for a negated `list[...]` flag. -/
theorem matchName_exact_spec :
    (∀ (a : ArgModel) (transform : Option (String → String)) (delim : Char) (term : String),
       a.kind ≠ .varKeyword →
       (∃ n ∈ a.names, applyTransform transform n = term) →
       (∀ n ∈ a.names, nameNoDelimBreak delim term (applyTransform transform n)) →
       matchName a term transform delim =
         .ok ([], if a.hint = .bool then Value.bool true else Value.pynone)) ∧
    (∀ (a : ArgModel) (transform : Option (String → String)) (delim : Char) (term : String),
       a.kind ≠ .varKeyword →
       (∀ n ∈ a.names, nameFallsThrough delim term (applyTransform transform n)) →
       (∃ n ∈ a.negatives, applyTransform transform n = term) →
       (∀ n ∈ a.negatives, nameNoDelimBreak delim term (applyTransform transform n)) →
       matchName a term transform delim = .ok ([], hintNullaryCall a.hint)) ∧
    hintNullaryCall .bool = .bool false ∧
    (∀ h, hintNullaryCall (.listOf h) = .emptyList) := by
  refine ⟨?_, ?_, rfl, fun _ => rfl⟩
  · intro a transform delim term hkind hmem hnb
    have hscan := scanNames_exact (if a.hint = .bool then Value.bool true else Value.pynone)
      hmem hnb
    simp [matchName, hkind, hscan]
  · intro a transform delim term hkind hfall hmem hnb
    have hpos := scanNames_fell (if a.hint = .bool then Value.bool true else Value.pynone)
      hfall
    have hneg := scanNames_exact (hintNullaryCall a.hint) hmem hnb
    simp [matchName, hkind, hpos, hneg]

/-- C3 witness: the boolean flag and the collection flag at concrete
terms. -/
theorem matchName_exact_spec_witness :
    matchName flagArg "--flag" none '.' = .ok ([], Value.bool true) ∧
    matchName flagArg "--no-flag" none '.' = .ok ([], Value.bool false) ∧
    matchName listArg "--empty-xs" none '.' = .ok ([], Value.emptyList) := by
  refine ⟨?_, ?_, ?_⟩
  · have h := matchName_exact_spec.1 flagArg none '.' "--flag" (by decide)
      ⟨"--flag", by decide, rfl⟩ (by decide)
    simpa using h
  · have h := matchName_exact_spec.2.1 flagArg none '.' "--no-flag" (by decide) (by decide)
      ⟨"--no-flag", by decide, rfl⟩ (by decide)
    simpa using h
  · have h := matchName_exact_spec.2.1 listArg none '.' "--empty-xs" (by decide) (by decide)
      ⟨"--empty-xs", by decide, rfl⟩ (by decide)
    simpa using h

/-- C4 witness: the amended statement applied at concrete inputs. -/
theorem resolveParameterName_spec_witness :
    resolveParameterName [["--foo."], ["bar"]] = ["--foo.bar"] ∧
    resolveParameterName [["*"], ["bar"]] = ["--bar"] ∧
    resolveParameterName [["--a", "foo"], ["-v"]] = ["-v"] := by
  refine ⟨resolveParameterName_spec.1 "--foo." "bar" (by decide) (by decide) (by decide) (by decide),
    resolveParameterName_spec.2.1 "bar" (by decide), ?_⟩
  have h := resolveParameterName_spec.2.2 ["--a", "foo"] "-v" (by decide)
  simpa using h

/-- C8 (code-bug evidence): `_match_index` line 453 tests
`self.iparam in (self.iparam.KEYWORD_ONLY, self.iparam.VAR_KEYWORD)`,
comparing the `inspect.Parameter` object (not its `.kind`) against the
kind enum, which is always false; so an Argument whose parameter is
keyword-only (or var-keyword) but carries a positional index is
successfully matched by that index, where the claim (and the apparent
intent, `self.iparam.kind in ...`) requires the match to fail. -/
theorem matchIndex_kind_guard_vacuous :
    matchIndex { names := ["--kw"], negatives := [], hint := .str,
                 kind := .keywordOnly, index := some 2, assignable := true } 2 =
      .ok ([], Value.pynone) ∧
    matchIndex { names := ["--kw"], negatives := [], hint := .str,
                 kind := .varKeyword, index := some 3, assignable := true } 3 =
      .ok ([], Value.pynone) :=
  ⟨rfl, rfl⟩

/-- C2: appending a token whose `(keys, index)` pair equals that of an
already-held token raises `RepeatArgumentError` when the hint reached
by the token's keys does not consume an unbounded token run; otherwise,
a keyed/keyless style mismatch with the already-held tokens raises
`MixedArgumentError`; and a successful append preserves the invariant
that all held tokens share one style (an Argument never holds both
positional-style and keyword-style tokens). -/
theorem appendToken_spec :
    (∀ (consumeAll : List String → Bool) (tokens : List TokenS) (tok : TokenS),
       (∃ x ∈ tokens, x.keys = tok.keys ∧ x.index = tok.index) →
       consumeAll tok.keys = false →
       appendToken consumeAll tokens tok = .error .repeatArgument) ∧
    (∀ (consumeAll : List String → Bool) (tokens : List TokenS) (tok : TokenS),
       ((¬ ∃ x ∈ tokens, x.keys = tok.keys ∧ x.index = tok.index) ∨
         consumeAll tok.keys = true) →
       tokens ≠ [] →
       ((!tok.keys.isEmpty).xor (tokens.any fun x => !x.keys.isEmpty)) = true →
       appendToken consumeAll tokens tok = .error .mixedArgument) ∧
    (∀ (consumeAll : List String → Bool) (tokens : List TokenS) (tok : TokenS)
       (b : Bool) (out : List TokenS),
       (∀ x ∈ tokens, x.keys.isEmpty = b) →
       appendToken consumeAll tokens tok = .ok out →
       ∃ b' : Bool, ∀ x ∈ out, x.keys.isEmpty = b') := by
  refine ⟨?_, ?_, ?_⟩
  · intro consumeAll tokens tok hdup hca
    obtain ⟨x, hx, hk, hi⟩ := hdup
    have hany : (tokens.any fun x => x.keys = tok.keys && x.index = tok.index) = true := by
      rw [List.any_eq_true]
      exact ⟨x, hx, by simp [hk, hi]⟩
    simp [appendToken, hany, hca]
  · intro consumeAll tokens tok hnodup hne hmix
    have hfirst :
        ((tokens.any fun x => x.keys = tok.keys && x.index = tok.index) &&
          !consumeAll tok.keys) = false := by
      rcases hnodup with h | h
      · have hany : (tokens.any fun x => x.keys = tok.keys && x.index = tok.index) = false := by
          rw [List.any_eq_false]
          intro x hx
          simp only [Bool.and_eq_true, decide_eq_true_eq, not_and]
          intro hk hi
          exact h ⟨x, hx, hk, hi⟩
        simp [hany]
      · simp [h]
    have hne' : tokens.isEmpty = false := by
      simpa [List.isEmpty_iff] using hne
    simp [appendToken, hfirst, hne', hmix]
  · intro consumeAll tokens tok b out hhom happ
    unfold appendToken at happ
    split at happ
    · cases happ
    · split at happ
      · cases happ
      · rename_i hc1 hc2
        have hout : out = tokens ++ [tok] := by
          cases happ
          rfl
        subst hout
        by_cases hemp : tokens = []
        · subst hemp
          exact ⟨tok.keys.isEmpty, by simp⟩
        · have hne' : tokens.isEmpty = false := by
            simpa [List.isEmpty_iff] using hemp
          have hxor : ((!tok.keys.isEmpty).xor (tokens.any fun x => !x.keys.isEmpty)) = false := by
            by_contra hx
            exact hc2 (by simp [hne', eq_true_of_ne_false hx])
          have hany : (tokens.any fun x => !x.keys.isEmpty) = !b := by
            cases tokens with
            | nil => exact absurd rfl hemp
            | cons t ts =>
              cases b
              · simp only [Bool.not_false]
                rw [List.any_eq_true]
                refine ⟨t, List.mem_cons_self t ts, ?_⟩
                have ht := hhom t (List.mem_cons_self t ts)
                simp [ht]
              · simp only [Bool.not_true]
                rw [List.any_eq_false]
                intro x hx
                have ht := hhom x hx
                simp [ht]
          have htok : tok.keys.isEmpty = b := by
            rw [hany] at hxor
            cases hkt : tok.keys.isEmpty <;> cases hbb : b <;>
              simp [hkt, hbb] at hxor ⊢
          refine ⟨b, ?_⟩
          intro x hx
          rcases List.mem_append.mp hx with h | h
          · exact hhom x h
          · simp at h
            subst h
            exact htok

/-- C2 witness: a duplicate `([], 0)` token on a non-unbounded hint is
rejected as a repeat; a keyed token after a keyless token is rejected
as mixed; a fresh `([], 1)` token appends and the style invariant
holds. -/
theorem appendToken_spec_witness :
    appendToken (fun _ => false) [{ keys := [], index := 0 }] { keys := [], index := 0 } =
      .error .repeatArgument ∧
    appendToken (fun _ => false) [{ keys := [], index := 0 }] { keys := ["a"], index := 1 } =
      .error .mixedArgument ∧
    ∃ b' : Bool, ∀ x ∈ ([{ keys := [], index := 0 }, { keys := [], index := 1 }] : List TokenS),
      x.keys.isEmpty = b' := by
  refine ⟨?_, ?_, ?_⟩
  · exact appendToken_spec.1 (fun _ => false) _ _ ⟨_, List.mem_singleton_self _, rfl, rfl⟩ rfl
  · exact appendToken_spec.2.1 (fun _ => false) _ _
      (Or.inl (by intro ⟨x, hx, hk, hi⟩; simp at hx; subst hx; simp at hk)) (by simp) (by decide)
  · exact appendToken_spec.2.2 (fun _ => false) [{ keys := [], index := 0 }]
      { keys := [], index := 1 } true _ (by intro x hx; simp at hx; subst hx; rfl) rfl

/-- Helper: `betterCandidate` never discards an existing candidate. -/
theorem betterCandidate_isSome {α : Type} (best : Option (α × List String × Value))
    (cand : α × List String × Value) : ∃ d, betterCandidate best cand = some d := by
  cases best with
  | none => exact ⟨cand, rfl⟩
  | some b =>
    obtain ⟨bb, bk, bv⟩ := b
    unfold betterCandidate
    by_cases h : cand.2.1.length < bk.length
    · exact ⟨cand, by simp [h]⟩
    · exact ⟨(bb, bk, bv), by simp [h]⟩

/-- Helper: a `none` result of the candidate loop means the loop
started with no candidate and every argument failed to match. -/
theorem collectionMatchLoop_eq_none {α : Type}
    {matchFn : α → Except Unit (List String × Value)} {l : List α}
    {best : Option (α × List String × Value)}
    (h : collectionMatchLoop matchFn l best = none) :
    best = none ∧ ∀ a ∈ l, matchFn a = .error () := by
  induction l generalizing best with
  | nil => exact ⟨h, by simp⟩
  | cons a rest ih =>
    unfold collectionMatchLoop at h
    cases hm : matchFn a with
    | error e =>
      rw [hm] at h
      obtain ⟨hb, hrest⟩ := ih h
      refine ⟨hb, ?_⟩
      intro x hx
      rcases List.mem_cons.mp hx with rfl | hx'
      · cases e
        exact hm
      · exact hrest x hx'
    | ok kv =>
      obtain ⟨keys, v⟩ := kv
      rw [hm] at h
      simp only at h
      obtain ⟨d, hd⟩ := betterCandidate_isSome best (a, keys, v)
      by_cases hk : keys.isEmpty
      · rw [if_pos hk] at h
        rw [hd] at h
        cases h
      · rw [if_neg hk] at h
        obtain ⟨hb, _⟩ := ih h
        rw [hd] at hb
        cases hb

/-- Helper: when every argument fails, the loop returns its initial
candidate unchanged. -/
theorem collectionMatchLoop_all_error {α : Type}
    {matchFn : α → Except Unit (List String × Value)} {l : List α}
    (h : ∀ a ∈ l, matchFn a = .error ())
    (best : Option (α × List String × Value)) :
    collectionMatchLoop matchFn l best = best := by
  induction l with
  | nil => rfl
  | cons a rest ih =>
    unfold collectionMatchLoop
    rw [h a (List.mem_cons_self a rest)]
    exact ih fun x hx => h x (List.mem_cons_of_mem a hx)

/-- Helper: a nonempty-leftover result of the loop is a lower bound for
every matching argument of the scanned list and for the initial
candidate (the loop never breaks early when the final leftover list is
nonempty). -/
theorem collectionMatchLoop_min {α : Type}
    {matchFn : α → Except Unit (List String × Value)} {l : List α}
    {best : Option (α × List String × Value)} {a : α} {keys : List String} {v : Value}
    (h : collectionMatchLoop matchFn l best = some (a, keys, v)) (hne : keys ≠ []) :
    (∀ b ∈ l, ∀ bk bv, matchFn b = .ok (bk, bv) → keys.length ≤ bk.length) ∧
      (∀ b0 bk0 bv0, best = some (b0, bk0, bv0) → keys.length ≤ bk0.length) := by
  induction l generalizing best with
  | nil =>
    refine ⟨by simp, ?_⟩
    intro b0 bk0 bv0 hb
    rw [hb] at h
    cases h
    simp
  | cons x rest ih =>
    unfold collectionMatchLoop at h
    cases hm : matchFn x with
    | error e =>
      rw [hm] at h
      obtain ⟨hrest, hbest⟩ := ih h
      refine ⟨?_, hbest⟩
      intro b hb bk bv hok
      rcases List.mem_cons.mp hb with rfl | hb'
      · rw [hm] at hok
        cases hok
      · exact hrest b hb' bk bv hok
    | ok kv =>
      obtain ⟨k, v'⟩ := kv
      rw [hm] at h
      simp only at h
      by_cases hk : k.isEmpty
      · rw [if_pos hk] at h
        have hknil : k = [] := List.isEmpty_iff.mp hk
        subst hknil
        exfalso
        cases best with
        | none =>
          cases h
          exact hne rfl
        | some b =>
          obtain ⟨bb, bk, bv⟩ := b
          rw [show betterCandidate (some (bb, bk, bv)) (x, [], v') =
              if ([] : List String).length < bk.length then some (x, ([] : List String), v')
              else some (bb, bk, bv) from rfl] at h
          by_cases hlt : ([] : List String).length < bk.length
          · rw [if_pos hlt] at h
            cases h
            exact hne rfl
          · rw [if_neg hlt] at h
            cases h
            have hk0 : keys = [] := by
              simpa using Nat.le_zero.mp (Nat.not_lt.mp hlt)
            exact hne hk0
      · rw [if_neg hk] at h
        obtain ⟨hrest, hbest'⟩ := ih h
        cases best with
        | none =>
          have hbk := hbest' x k v' rfl
          refine ⟨?_, by simp⟩
          intro b hb bk bv hok
          rcases List.mem_cons.mp hb with rfl | hb'
          · rw [hm] at hok
            cases hok
            exact hbk
          · exact hrest b hb' bk bv hok
        | some bold =>
          obtain ⟨bb, bk0, bv0⟩ := bold
          rw [show betterCandidate (some (bb, bk0, bv0)) (x, k, v') =
              if k.length < bk0.length then some (x, k, v')
              else some (bb, bk0, bv0) from rfl] at h
          by_cases hlt : k.length < bk0.length
          · rw [if_pos hlt] at h
            have hbc : betterCandidate (some (bb, bk0, bv0)) (x, k, v') = some (x, k, v') := by
              rw [show betterCandidate (some (bb, bk0, bv0)) (x, k, v') =
                  if k.length < bk0.length then some (x, k, v')
                  else some (bb, bk0, bv0) from rfl, if_pos hlt]
            have hbk := hbest' x k v' hbc
            refine ⟨?_, ?_⟩
            · intro b hb bk bv hok
              rcases List.mem_cons.mp hb with rfl | hb'
              · rw [hm] at hok
                cases hok
                exact hbk
              · exact hrest b hb' bk bv hok
            · intro b0 bkk bvv hb
              cases hb
              exact le_of_lt (lt_of_le_of_lt hbk hlt)
          · rw [if_neg hlt] at h
            have hbc : betterCandidate (some (bb, bk0, bv0)) (x, k, v') = some (bb, bk0, bv0) := by
              rw [show betterCandidate (some (bb, bk0, bv0)) (x, k, v') =
                  if k.length < bk0.length then some (x, k, v')
                  else some (bb, bk0, bv0) from rfl, if_neg hlt]
            have hbk0 := hbest' bb bk0 bv0 hbc
            refine ⟨?_, ?_⟩
            · intro b hb bk bv hok
              rcases List.mem_cons.mp hb with rfl | hb'
              · rw [hm] at hok
                cases hok
                exact le_trans hbk0 (Nat.not_lt.mp hlt)
              · exact hrest b hb' bk bv hok
            · intro b0 bkk bvv hb
              cases hb
              exact hbk0

/-- Helper: a `some` result of the loop either is the untouched initial
candidate — in which case nothing scanned strictly beat it — or comes
from an argument of the list that strictly beat the initial candidate
and everything scanned before it. -/
theorem collectionMatchLoop_first {α : Type}
    {matchFn : α → Except Unit (List String × Value)} {l : List α}
    {best : Option (α × List String × Value)} {a : α} {keys : List String} {v : Value}
    (h : collectionMatchLoop matchFn l best = some (a, keys, v)) :
    (best = some (a, keys, v) ∧
       ∀ b ∈ l, ∀ bk bv, matchFn b = .ok (bk, bv) → keys.length ≤ bk.length) ∨
    (∃ l1 l2, l = l1 ++ a :: l2 ∧ matchFn a = .ok (keys, v) ∧
       (∀ b ∈ l1, ∀ bk bv, matchFn b = .ok (bk, bv) → keys.length < bk.length) ∧
       (∀ b0 bk0 bv0, best = some (b0, bk0, bv0) → keys.length < bk0.length)) := by
  induction l generalizing best with
  | nil =>
    left
    cases h
    exact ⟨rfl, by simp⟩
  | cons x rest ih =>
    unfold collectionMatchLoop at h
    cases hm : matchFn x with
    | error e =>
      rw [hm] at h
      rcases ih h with ⟨hb, hall⟩ | ⟨l1, l2, hdecomp, hok, hstrict, hbest⟩
      · left
        refine ⟨hb, ?_⟩
        intro b hb' bk bv hok
        rcases List.mem_cons.mp hb' with rfl | hb''
        · rw [hm] at hok
          cases hok
        · exact hall b hb'' bk bv hok
      · right
        refine ⟨x :: l1, l2, by simp [hdecomp], hok, ?_, hbest⟩
        intro b hb' bk bv hok'
        rcases List.mem_cons.mp hb' with rfl | hb''
        · rw [hm] at hok'
          cases hok'
        · exact hstrict b hb'' bk bv hok'
    | ok kv =>
      obtain ⟨k, v'⟩ := kv
      rw [hm] at h
      simp only at h
      by_cases hk : k.isEmpty
      · rw [if_pos hk] at h
        have hknil : k = [] := List.isEmpty_iff.mp hk
        subst hknil
        cases best with
        | none =>
          cases h
          right
          exact ⟨[], rest, rfl, hm, by simp, by simp⟩
        | some bold =>
          obtain ⟨bb, bk0, bv0⟩ := bold
          rw [show betterCandidate (some (bb, bk0, bv0)) (x, [], v') =
              if ([] : List String).length < bk0.length then some (x, ([] : List String), v')
              else some (bb, bk0, bv0) from rfl] at h
          by_cases hlt : ([] : List String).length < bk0.length
          · rw [if_pos hlt] at h
            cases h
            right
            refine ⟨[], rest, rfl, hm, by simp, ?_⟩
            intro b0 bkk bvv hb
            cases hb
            exact hlt
          · rw [if_neg hlt] at h
            cases h
            left
            have hbk0 : keys = [] := by
              simpa using Nat.le_zero.mp (Nat.not_lt.mp hlt)
            refine ⟨rfl, ?_⟩
            intro b hb' bk bv hok
            simp [hbk0]
      · rw [if_neg hk] at h
        have hkne : k ≠ [] := fun hnil => hk (by simp [hnil])
        cases best with
        | none =>
          rcases ih h with ⟨hb, hall⟩ | ⟨l1, l2, hdecomp, hok, hstrict, hbest⟩
          · -- the candidate minted from x survived the rest of the scan
            rw [show betterCandidate (α := α) none (x, k, v') = some (x, k, v') from rfl] at hb
            cases hb
            right
            refine ⟨[], rest, rfl, hm, by simp, by simp⟩
          · right
            have hxk := hbest x k v' rfl
            refine ⟨x :: l1, l2, by simp [hdecomp], hok, ?_, by simp⟩
            intro b hb' bk bv hok'
            rcases List.mem_cons.mp hb' with rfl | hb''
            · rw [hm] at hok'
              cases hok'
              exact hxk
            · exact hstrict b hb'' bk bv hok'
        | some bold =>
          obtain ⟨bb, bk0, bv0⟩ := bold
          rw [show betterCandidate (some (bb, bk0, bv0)) (x, k, v') =
              if k.length < bk0.length then some (x, k, v')
              else some (bb, bk0, bv0) from rfl] at h
          by_cases hlt : k.length < bk0.length
          · rw [if_pos hlt] at h
            rcases ih h with ⟨hb, hall⟩ | ⟨l1, l2, hdecomp, hok, hstrict, hbest⟩
            · cases hb
              right
              refine ⟨[], rest, rfl, hm, by simp, ?_⟩
              intro b0 bkk bvv hb
              cases hb
              exact hlt
            · right
              have hxk := hbest x k v' rfl
              refine ⟨x :: l1, l2, by simp [hdecomp], hok, ?_, ?_⟩
              · intro b hb' bk bv hok'
                rcases List.mem_cons.mp hb' with rfl | hb''
                · rw [hm] at hok'
                  cases hok'
                  exact hxk
                · exact hstrict b hb'' bk bv hok'
              · intro b0 bkk bvv hb
                cases hb
                exact lt_trans hxk hlt
          · rw [if_neg hlt] at h
            rcases ih h with ⟨hb, hall⟩ | ⟨l1, l2, hdecomp, hok, hstrict, hbest⟩
            · cases hb
              left
              refine ⟨rfl, ?_⟩
              intro b hb' bk bv hok
              rcases List.mem_cons.mp hb' with rfl | hb''
              · rw [hm] at hok
                cases hok
                exact Nat.not_lt.mp hlt
              · exact hall b hb'' bk bv hok
            · right
              have hbk0 := hbest bb bk0 bv0 rfl
              refine ⟨x :: l1, l2, by simp [hdecomp], hok, ?_, ?_⟩
              · intro b hb' bk bv hok'
                rcases List.mem_cons.mp hb' with rfl | hb''
                · rw [hm] at hok'
                  cases hok'
                  exact lt_of_lt_of_le hbk0 (Nat.not_lt.mp hlt)
                · exact hstrict b hb'' bk bv hok'
              · intro b0 bkk bvv hb
                cases hb
                exact hbk0

/-- Helper: once a zero-leftover candidate is reached, the loop result
does not depend on the arguments after it. -/
theorem collectionMatchLoop_break {α : Type}
    {matchFn : α → Except Unit (List String × Value)} (l1 : List α) (a : α)
    (l2 : List α) (v : Value) (hm : matchFn a = .ok ([], v))
    (best : Option (α × List String × Value)) :
    collectionMatchLoop matchFn (l1 ++ a :: l2) best =
      collectionMatchLoop matchFn (l1 ++ [a]) best := by
  induction l1 generalizing best with
  | nil => simp [collectionMatchLoop, hm]
  | cons x rest ih =>
    cases hx : matchFn x with
    | error e => simpa [collectionMatchLoop, hx] using ih best
    | ok kv =>
      obtain ⟨k, v'⟩ := kv
      by_cases hk : k.isEmpty
      · simp [collectionMatchLoop, hx, hk]
      · simp only [List.cons_append, collectionMatchLoop, hx, hk]
        exact ih _

/-- C1: `ArgumentCollection.match` fails exactly when every contained
Argument's `match` fails; a successful result `(a, keys, v)` is the
match of an Argument `a` from the collection such that every Argument
before `a` that matches does so with strictly more leftover keys (first
minimum wins) and every Argument of the whole collection that matches
does so with at least as many leftover keys (fewest leftover keys
wins); and a zero-leftover match short-circuits: everything after the
first zero-leftover Argument is irrelevant to the result. -/
theorem collectionMatch_spec {α : Type}
    (matchFn : α → Except Unit (List String × Value)) :
    (∀ args : List α,
       collectionMatch matchFn args = .error () ↔ ∀ a ∈ args, matchFn a = .error ()) ∧
    (∀ (args : List α) (a : α) (keys : List String) (v : Value),
       collectionMatch matchFn args = .ok (a, keys, v) →
       matchFn a = .ok (keys, v) ∧
       (∃ l1 l2, args = l1 ++ a :: l2 ∧
          ∀ b ∈ l1, ∀ bk bv, matchFn b = .ok (bk, bv) → keys.length < bk.length) ∧
       (∀ b ∈ args, ∀ bk bv, matchFn b = .ok (bk, bv) → keys.length ≤ bk.length)) ∧
    (∀ (l1 : List α) (a : α) (l2 : List α) (v : Value),
       matchFn a = .ok ([], v) →
       collectionMatch matchFn (l1 ++ a :: l2) = collectionMatch matchFn (l1 ++ [a])) := by
  refine ⟨?_, ?_, ?_⟩
  · intro args
    constructor
    · intro h
      unfold collectionMatch at h
      cases hl : collectionMatchLoop matchFn args none with
      | none => exact (collectionMatchLoop_eq_none hl).2
      | some d =>
        rw [hl] at h
        cases h
    · intro h
      unfold collectionMatch
      rw [collectionMatchLoop_all_error h none]
  · intro args a keys v h
    unfold collectionMatch at h
    cases hl : collectionMatchLoop matchFn args none with
    | none =>
      rw [hl] at h
      cases h
    | some d =>
      rw [hl] at h
      cases h
      rcases collectionMatchLoop_first hl with ⟨hb, _⟩ | ⟨l1, l2, hdecomp, hok, hstrict, _⟩
      · cases hb
      · refine ⟨hok, ⟨l1, l2, hdecomp, hstrict⟩, ?_⟩
        by_cases hne : keys = []
        · subst hne
          simp
        · exact (collectionMatchLoop_min hl hne).1
  · intro l1 a l2 v hm
    unfold collectionMatch
    rw [collectionMatchLoop_break l1 a l2 v hm none]

/-- C1 witness: searching `[listArg, flagArg]` for `--flag` matches
`flagArg` exactly. -/
theorem collectionMatch_spec_witness :
    argumentMatch flagArg (.str "--flag") none '.' = .ok ([], Value.bool true) :=
  ((collectionMatch_spec fun a : ArgModel => argumentMatch a (.str "--flag") none '.').2.1
    [listArg, flagArg] flagArg [] (Value.bool true) rfl).1

/-- Helper: the character order is total. -/
theorem charLe_total (a b : Char) : charLe a b = true ∨ charLe b a = true := by
  simp only [charLe, decide_eq_true_eq]
  exact Nat.le_total _ _

/-- Helper: the character order is transitive. -/
theorem charLe_trans {a b c : Char} (h1 : charLe a b = true) (h2 : charLe b c = true) :
    charLe a c = true := by
  simp only [charLe, decide_eq_true_eq] at h1 h2 ⊢
  exact Nat.le_trans h1 h2

/-- Helper: the character order is antisymmetric. -/
theorem charLe_antisymm {a b : Char} (h1 : charLe a b = true) (h2 : charLe b a = true) :
    a = b := by
  simp only [charLe, decide_eq_true_eq] at h1 h2
  have hn : a.toNat = b.toNat := Nat.le_antisymm h1 h2
  have hv : a.val = b.val := UInt32.toNat.inj hn
  exact Char.eq_of_val_eq hv

/-- Helper: lexicographic list order is total when the element order
is. -/
theorem lexIfEq_total {β : Type} [DecidableEq β] (le : β → β → Bool)
    (htot : ∀ a b, le a b = true ∨ le b a = true) :
    ∀ xs ys : List β, lexIfEq le xs ys = true ∨ lexIfEq le ys xs = true := by
  intro xs
  induction xs with
  | nil => intro ys; left; rfl
  | cons a as ih =>
    intro ys
    cases ys with
    | nil => right; rfl
    | cons b bs =>
      by_cases hab : a = b
      · subst hab
        rcases ih bs with h | h
        · left
          simp [lexIfEq, h]
        · right
          simp [lexIfEq, h]
      · have hba : ¬ b = a := fun h => hab h.symm
        rcases htot a b with h | h
        · left
          simp [lexIfEq, hab, h]
        · right
          simp [lexIfEq, hba, h]

/-- Helper: lexicographic list order is transitive when the element
order is transitive and antisymmetric. -/
theorem lexIfEq_trans {β : Type} [DecidableEq β] (le : β → β → Bool)
    (htr : ∀ a b c, le a b = true → le b c = true → le a c = true)
    (han : ∀ a b, le a b = true → le b a = true → a = b) :
    ∀ xs ys zs : List β, lexIfEq le xs ys = true → lexIfEq le ys zs = true →
      lexIfEq le xs zs = true := by
  intro xs
  induction xs with
  | nil => intro ys zs _ _; rfl
  | cons a as ih =>
    intro ys zs h1 h2
    cases ys with
    | nil => simp [lexIfEq] at h1
    | cons b bs =>
      cases zs with
      | nil => simp [lexIfEq] at h2
      | cons c cs =>
        by_cases hab : a = b
        · subst hab
          by_cases hbc : a = c
          · subst hbc
            simp only [lexIfEq, if_pos rfl] at h1 h2 ⊢
            exact ih bs cs h1 h2
          · simp only [lexIfEq, if_pos rfl] at h1
            simp only [lexIfEq, if_neg hbc] at h2 ⊢
            exact h2
        · by_cases hbc : b = c
          · subst hbc
            simp only [lexIfEq, if_neg hab] at h1 ⊢
            exact h1
          · have hac : ¬ a = c := by
              intro he
              subst he
              simp only [lexIfEq, if_neg hab] at h1
              have hba : ¬ b = a := fun h => hab h.symm
              simp only [lexIfEq, if_neg hba] at h2
              exact hab (han a b h1 h2)
            simp only [lexIfEq, if_neg hab] at h1
            simp only [lexIfEq, if_neg hbc] at h2
            simp only [lexIfEq, if_neg hac]
            exact htr a b c h1 h2

/-- Helper: lexicographic list order is antisymmetric when the element
order is. -/
theorem lexIfEq_antisymm {β : Type} [DecidableEq β] (le : β → β → Bool)
    (han : ∀ a b, le a b = true → le b a = true → a = b) :
    ∀ xs ys : List β, lexIfEq le xs ys = true → lexIfEq le ys xs = true → xs = ys := by
  intro xs
  induction xs with
  | nil =>
    intro ys h1 h2
    cases ys with
    | nil => rfl
    | cons b bs => simp [lexIfEq] at h2
  | cons a as ih =>
    intro ys h1 h2
    cases ys with
    | nil => simp [lexIfEq] at h1
    | cons b bs =>
      by_cases hab : a = b
      · subst hab
        simp only [lexIfEq, if_pos rfl] at h1 h2
        rw [ih bs h1 h2]
      · have hba : ¬ b = a := fun h => hab h.symm
        simp only [lexIfEq, if_neg hab] at h1
        simp only [lexIfEq, if_neg hba] at h2
        exact absurd (han a b h1 h2) hab

/-- Helper: the string order is total. -/
theorem strLe_total (s t : String) : strLe s t = true ∨ strLe t s = true :=
  lexIfEq_total charLe charLe_total s.data t.data

/-- Helper: the string order is transitive. -/
theorem strLe_trans {s t u : String} (h1 : strLe s t = true) (h2 : strLe t u = true) :
    strLe s u = true :=
  lexIfEq_trans charLe (fun _ _ _ h1 h2 => charLe_trans h1 h2) (fun _ _ h1 h2 => charLe_antisymm h1 h2) s.data t.data u.data h1 h2

/-- Helper: the string order is antisymmetric. -/
theorem strLe_antisymm {s t : String} (h1 : strLe s t = true) (h2 : strLe t s = true) :
    s = t := by
  have hd : s.data = t.data :=
    lexIfEq_antisymm charLe (fun _ _ h1 h2 => charLe_antisymm h1 h2) s.data t.data h1 h2
  cases s
  cases t
  exact congrArg String.mk hd

/-- Helper: the atom order is total. -/
theorem satomLe_total (a b : SAtom) : SAtom.le a b = true ∨ SAtom.le b a = true := by
  cases a <;> cases b <;> simp [SAtom.le, SAtom.rank]
  · exact Int.le_total _ _
  · exact strLe_total _ _

/-- Helper: the atom order is transitive. -/
theorem satomLe_trans {a b c : SAtom} (h1 : SAtom.le a b = true) (h2 : SAtom.le b c = true) :
    SAtom.le a c = true := by
  cases a <;> cases b <;> cases c <;> simp_all [SAtom.le, SAtom.rank]
  · omega
  · exact strLe_trans h1 h2

/-- Helper: the atom order is antisymmetric. -/
theorem satomLe_antisymm {a b : SAtom} (h1 : SAtom.le a b = true) (h2 : SAtom.le b a = true) :
    a = b := by
  cases a <;> cases b <;> simp_all [SAtom.le, SAtom.rank]
  · omega
  · exact strLe_antisymm h1 h2

/-- Helper: the sort-key order is total. -/
theorem skeyLe_total (a b : SKey) : SKey.le a b = true ∨ SKey.le b a = true := by
  cases a <;> cases b <;> simp [SKey.le, SKey.rank]
  · exact satomLe_total _ _
  · exact lexIfEq_total SAtom.le satomLe_total _ _

/-- Helper: the sort-key order is transitive. -/
theorem skeyLe_trans {a b c : SKey} (h1 : SKey.le a b = true) (h2 : SKey.le b c = true) :
    SKey.le a c = true := by
  cases a <;> cases b <;> cases c <;> simp_all [SKey.le, SKey.rank]
  · exact satomLe_trans h1 h2
  · exact lexIfEq_trans SAtom.le (fun _ _ _ h1 h2 => satomLe_trans h1 h2) (fun _ _ h1 h2 => satomLe_antisymm h1 h2) _ _ _ h1 h2

/-- Helper: the sort-key order is antisymmetric. -/
theorem skeyLe_antisymm {a b : SKey} (h1 : SKey.le a b = true) (h2 : SKey.le b a = true) :
    a = b := by
  cases a <;> cases b <;> simp_all [SKey.le, SKey.rank]
  · exact satomLe_antisymm h1 h2
  · exact lexIfEq_antisymm SAtom.le (fun _ _ h1 h2 => satomLe_antisymm h1 h2) _ _ h1 h2

/-- Helper: the pair order is total when its components are. -/
theorem pairLe_total {β γ : Type} [DecidableEq β] (le1 : β → β → Bool) (le2 : γ → γ → Bool)
    (h1 : ∀ a b, le1 a b = true ∨ le1 b a = true)
    (h2 : ∀ a b, le2 a b = true ∨ le2 b a = true) (p q : β × γ) :
    pairLe le1 le2 p q = true ∨ pairLe le1 le2 q p = true := by
  by_cases h : p.1 = q.1
  · simp only [pairLe, if_pos h, if_pos h.symm]
    exact h2 _ _
  · have h' : ¬ q.1 = p.1 := fun he => h he.symm
    simp only [pairLe, if_neg h, if_neg h']
    exact h1 _ _

/-- Helper: the pair order is transitive when the first component is
transitive and antisymmetric and the second transitive. -/
theorem pairLe_trans {β γ : Type} [DecidableEq β] (le1 : β → β → Bool) (le2 : γ → γ → Bool)
    (htr1 : ∀ a b c, le1 a b = true → le1 b c = true → le1 a c = true)
    (han1 : ∀ a b, le1 a b = true → le1 b a = true → a = b)
    (htr2 : ∀ a b c, le2 a b = true → le2 b c = true → le2 a c = true)
    {p q r : β × γ} (h1 : pairLe le1 le2 p q = true) (h2 : pairLe le1 le2 q r = true) :
    pairLe le1 le2 p r = true := by
  by_cases hpq : p.1 = q.1
  · by_cases hqr : q.1 = r.1
    · have hpr : p.1 = r.1 := hpq.trans hqr
      simp only [pairLe, if_pos hpq] at h1
      simp only [pairLe, if_pos hqr] at h2
      simp only [pairLe, if_pos hpr]
      exact htr2 _ _ _ h1 h2
    · have hpr : ¬ p.1 = r.1 := fun he => hqr (hpq.symm.trans he)
      simp only [pairLe, if_neg hqr] at h2
      simp only [pairLe, if_neg hpr]
      rw [hpq]
      exact h2
  · by_cases hqr : q.1 = r.1
    · have hpr : ¬ p.1 = r.1 := fun he => hpq (he.trans hqr.symm)
      simp only [pairLe, if_neg hpq] at h1
      simp only [pairLe, if_neg hpr]
      rw [← hqr]
      exact h1
    · have hpr : ¬ p.1 = r.1 := by
        intro he
        simp only [pairLe, if_neg hpq] at h1
        simp only [pairLe, if_neg hqr] at h2
        rw [he] at h1
        exact hqr (han1 _ _ h2 h1)
      simp only [pairLe, if_neg hpq] at h1
      simp only [pairLe, if_neg hqr] at h2
      simp only [pairLe, if_neg hpr]
      exact htr1 _ _ _ h1 h2

instance {A : Type} : IsTotal ((SKey × String) × Group × A) (tierARel (A := A)) :=
  ⟨fun p q => pairLe_total SKey.le strLe skeyLe_total strLe_total p.1 q.1⟩

instance {A : Type} : IsTrans ((SKey × String) × Group × A) (tierARel (A := A)) :=
  ⟨fun _ _ _ h1 h2 =>
    pairLe_trans SKey.le strLe (fun _ _ _ h1 h2 => skeyLe_trans h1 h2)
      (fun _ _ h1 h2 => skeyLe_antisymm h1 h2) (fun _ _ _ h1 h2 => strLe_trans h1 h2) h1 h2⟩

instance {A : Type} : IsTotal (List SAtom × Group × A) (tierBRel (A := A)) :=
  ⟨fun p q => lexIfEq_total SAtom.le satomLe_total p.1 q.1⟩

instance {A : Type} : IsTrans (List SAtom × Group × A) (tierBRel (A := A)) :=
  ⟨fun _ _ _ h1 h2 =>
    lexIfEq_trans SAtom.le (fun _ _ _ h1 h2 => satomLe_trans h1 h2)
      (fun _ _ h1 h2 => satomLe_antisymm h1 h2) _ _ _ h1 h2⟩

instance {A : Type} : IsTotal (String × Group × A) (tierCRel (A := A)) :=
  ⟨fun p q => strLe_total p.1 q.1⟩

instance {A : Type} : IsTrans (String × Group × A) (tierCRel (A := A)) :=
  ⟨fun _ _ _ h1 h2 => strLe_trans h1 h2⟩

/-- Helper: a sentinel-or-`None` sort key is never an iterable one. -/
theorem isTierC_not_isTierB {k : SKey} (h : isTierC k = true) : isTierB k = false := by
  cases k with
  | sentinel => rfl
  | atom a => rfl
  | tup xs => simp [isTierC] at h

/-- Helper: the `sort_key_panels` bucket holds exactly the pairs with a
concrete, non-sentinel-led sort key. -/
theorem tierAPanels_map {A : Type} (pairs : List (Group × A)) :
    (tierAPanels pairs).map (·.2) =
      pairs.filter fun p => !isTierC p.1.sortKey && !isTierB p.1.sortKey := by
  induction pairs with
  | nil => rfl
  | cons p rest ih =>
    by_cases hc : isTierC p.1.sortKey
    · simp [tierAPanels, List.filterMap_cons, hc, List.filter_cons] at ih ⊢
      exact ih
    · by_cases hb : isTierB p.1.sortKey
      · simp [tierAPanels, List.filterMap_cons, hc, hb, List.filter_cons] at ih ⊢
        exact ih
      · simp [tierAPanels, List.filterMap_cons, hc, hb, List.filter_cons] at ih ⊢
        exact ih

/-- Helper: the `ordered_no_user_sort_key_panels` bucket holds exactly
the pairs with a sentinel-led iterable sort key. -/
theorem tierBPanels_map {A : Type} (pairs : List (Group × A)) :
    (tierBPanels pairs).map (·.2) = pairs.filter fun p => isTierB p.1.sortKey := by
  induction pairs with
  | nil => rfl
  | cons p rest ih =>
    cases hk : p.1.sortKey with
    | sentinel =>
      simp [tierBPanels, List.filterMap_cons, List.filter_cons, isTierC, isTierB, hk] at ih ⊢
      exact ih
    | atom a =>
      cases a <;>
        simp [tierBPanels, List.filterMap_cons, List.filter_cons, isTierC, isTierB, hk] at ih ⊢ <;>
        exact ih
    | tup xs =>
      cases xs with
      | nil =>
        simp [tierBPanels, List.filterMap_cons, List.filter_cons, isTierC, isTierB, hk] at ih ⊢
        exact ih
      | cons x xrest =>
        cases x <;>
          simp [tierBPanels, List.filterMap_cons, List.filter_cons, isTierC, isTierB, hk] at ih ⊢ <;>
          exact ih

/-- Helper: the `no_user_sort_key_panels` bucket holds exactly the
pairs whose sort key is the sentinel or `None`. -/
theorem tierCPanels_map {A : Type} (pairs : List (Group × A)) :
    (tierCPanels pairs).map (·.2) = pairs.filter fun p => isTierC p.1.sortKey := by
  induction pairs with
  | nil => rfl
  | cons p rest ih =>
    by_cases hc : isTierC p.1.sortKey
    · simp [tierCPanels, List.filterMap_cons, hc, List.filter_cons] at ih ⊢
      exact ih
    · simp [tierCPanels, List.filterMap_cons, hc, List.filter_cons] at ih ⊢
      exact ih

/-- Helper: a `sort_key_panels` entry carries the key
`(group._sort_key, group.name)`. -/
theorem tierAPanels_key {A : Type} {pairs : List (Group × A)}
    {x : (SKey × String) × Group × A} (hx : x ∈ tierAPanels pairs) :
    x.1 = (x.2.1.sortKey, x.2.1.name) := by
  unfold tierAPanels at hx
  rw [List.mem_filterMap] at hx
  obtain ⟨p, hp, hf⟩ := hx
  by_cases hc : isTierC p.1.sortKey
  · simp [hc] at hf
  · by_cases hb : isTierB p.1.sortKey
    · simp [hc, hb] at hf
    · simp [hc, hb] at hf
      rw [← hf]

/-- Helper: an `ordered_no_user_sort_key_panels` entry carries the key
`sort_key[1:] + (group.name,)`. -/
theorem tierBPanels_key {A : Type} {pairs : List (Group × A)}
    {x : List SAtom × Group × A} (hx : x ∈ tierBPanels pairs) :
    x.1 = tierBKey x.2.1 := by
  unfold tierBPanels at hx
  rw [List.mem_filterMap] at hx
  obtain ⟨p, hp, hf⟩ := hx
  by_cases hc : isTierC p.1.sortKey
  · simp [hc] at hf
  · cases hk : p.1.sortKey with
    | sentinel => simp [hc, hk] at hf
    | atom a => simp [hc, hk] at hf
    | tup xs =>
      cases xs with
      | nil => simp [hc, hk] at hf
      | cons y yrest =>
        cases y with
        | sentinel =>
          simp [hc, hk] at hf
          obtain ⟨-, hfx⟩ := hf
          rw [← hfx]
          simp [tierBKey, hk]
        | pynone =>
          simp [hc, hk] at hf
          obtain ⟨-, hfx⟩ := hf
          rw [← hfx]
          simp [tierBKey, hk]
        | int n => simp [hc, hk] at hf
        | str s => simp [hc, hk] at hf

/-- Helper: a `no_user_sort_key_panels` entry carries the key
`(group.name,)`. -/
theorem tierCPanels_key {A : Type} {pairs : List (Group × A)}
    {x : String × Group × A} (hx : x ∈ tierCPanels pairs) :
    x.1 = x.2.1.name := by
  unfold tierCPanels at hx
  rw [List.mem_filterMap] at hx
  obtain ⟨p, hp, hf⟩ := hx
  by_cases hc : isTierC p.1.sortKey
  · simp [hc] at hf
    rw [← hf]
  · simp [hc] at hf

/-- Helper: the three buckets partition the zipped pairs. -/
theorem filter3_perm {A : Type} (pairs : List (Group × A)) :
    List.Perm
      ((pairs.filter fun p => !isTierC p.1.sortKey && !isTierB p.1.sortKey) ++
        (pairs.filter fun p => isTierB p.1.sortKey) ++
        (pairs.filter fun p => isTierC p.1.sortKey)) pairs := by
  induction pairs with
  | nil => simp
  | cons p rest ih =>
    by_cases hc : isTierC p.1.sortKey = true
    · have hb : isTierB p.1.sortKey = false := isTierC_not_isTierB hc
      have e1 : List.filter (fun p => !isTierC p.1.sortKey && !isTierB p.1.sortKey) (p :: rest) =
          List.filter (fun p => !isTierC p.1.sortKey && !isTierB p.1.sortKey) rest := by
        simp [List.filter_cons, hc]
      have e2 : List.filter (fun p => isTierB p.1.sortKey) (p :: rest) =
          List.filter (fun p => isTierB p.1.sortKey) rest := by
        simp [List.filter_cons, hb]
      have e3 : List.filter (fun p => isTierC p.1.sortKey) (p :: rest) =
          p :: List.filter (fun p => isTierC p.1.sortKey) rest := by
        simp [List.filter_cons, hc]
      rw [e1, e2, e3]
      exact List.Perm.trans List.perm_middle (ih.cons p)
    · by_cases hb : isTierB p.1.sortKey = true
      · have hc' : isTierC p.1.sortKey = false := by simpa using hc
        have e1 : List.filter (fun p => !isTierC p.1.sortKey && !isTierB p.1.sortKey) (p :: rest) =
            List.filter (fun p => !isTierC p.1.sortKey && !isTierB p.1.sortKey) rest := by
          simp [List.filter_cons, hb]
        have e2 : List.filter (fun p => isTierB p.1.sortKey) (p :: rest) =
            p :: List.filter (fun p => isTierB p.1.sortKey) rest := by
          simp [List.filter_cons, hb]
        have e3 : List.filter (fun p => isTierC p.1.sortKey) (p :: rest) =
            List.filter (fun p => isTierC p.1.sortKey) rest := by
          simp [List.filter_cons, hc']
        rw [e1, e2, e3]
        refine List.Perm.trans ?_ (ih.cons p)
        have h1 : (rest.filter fun p => !isTierC p.1.sortKey && !isTierB p.1.sortKey) ++
            (p :: (rest.filter fun p => isTierB p.1.sortKey)) ++
            (rest.filter fun p => isTierC p.1.sortKey) =
            (rest.filter fun p => !isTierC p.1.sortKey && !isTierB p.1.sortKey) ++
            p :: ((rest.filter fun p => isTierB p.1.sortKey) ++
            (rest.filter fun p => isTierC p.1.sortKey)) := by
          simp
        rw [h1, List.append_assoc]
        exact List.perm_middle
      · have hc' : isTierC p.1.sortKey = false := by simpa using hc
        have hb' : isTierB p.1.sortKey = false := by simpa using hb
        have e1 : List.filter (fun p => !isTierC p.1.sortKey && !isTierB p.1.sortKey) (p :: rest) =
            p :: List.filter (fun p => !isTierC p.1.sortKey && !isTierB p.1.sortKey) rest := by
          simp [List.filter_cons, hc', hb']
        have e2 : List.filter (fun p => isTierB p.1.sortKey) (p :: rest) =
            List.filter (fun p => isTierB p.1.sortKey) rest := by
          simp [List.filter_cons, hb']
        have e3 : List.filter (fun p => isTierC p.1.sortKey) (p :: rest) =
            List.filter (fun p => isTierC p.1.sortKey) rest := by
          simp [List.filter_cons, hc']
        rw [e1, e2, e3]
        have h1 : (p :: (rest.filter fun p => !isTierC p.1.sortKey && !isTierB p.1.sortKey)) ++
            (rest.filter fun p => isTierB p.1.sortKey) ++
            (rest.filter fun p => isTierC p.1.sortKey) =
            p :: ((rest.filter fun p => !isTierC p.1.sortKey && !isTierB p.1.sortKey) ++
            (rest.filter fun p => isTierB p.1.sortKey) ++
            (rest.filter fun p => isTierC p.1.sortKey)) := by
          simp
        rw [h1]
        exact ih.cons p

/-- Helper: on equal-length inputs with no empty-tuple sort key,
`sort_groups` returns the unzipped concatenation of the three sorted
buckets. -/
theorem sortGroups_eq {A : Type} (groups : List Group) (attributes : List A)
    (hlen : groups.length = attributes.length)
    (hkeys : ∀ g ∈ groups, g.sortKey ≠ SKey.tup []) :
    sortGroups groups attributes =
      .ok (((List.insertionSort tierARel (tierAPanels (groups.zip attributes))).map (·.2) ++
          (List.insertionSort tierBRel (tierBPanels (groups.zip attributes))).map (·.2) ++
          (List.insertionSort tierCRel (tierCPanels (groups.zip attributes))).map (·.2)).map (·.1),
        ((List.insertionSort tierARel (tierAPanels (groups.zip attributes))).map (·.2) ++
          (List.insertionSort tierBRel (tierBPanels (groups.zip attributes))).map (·.2) ++
          (List.insertionSort tierCRel (tierCPanels (groups.zip attributes))).map (·.2)).map (·.2)) := by
  by_cases hemp : groups.isEmpty
  · have hg : groups = [] := List.isEmpty_iff.mp hemp
    subst hg
    have ha : attributes = [] := by
      cases attributes with
      | nil => rfl
      | cons x xs => cases hlen
    subst ha
    rfl
  · have hany : (groups.zip attributes).any (fun p => p.1.sortKey = SKey.tup []) = false := by
      rw [List.any_eq_false]
      intro p hp
      have hg : p.1 ∈ groups := (List.of_mem_zip hp).1
      simpa using hkeys p.1 hg
    unfold sortGroups
    rw [if_neg (by simp [hlen]), if_neg (by simp [hemp]), if_neg (by simp [hany])]

/-- C10: on equal-length inputs (whose sort keys do not make the
source raise), `sort_groups` returns lists of the same lengths whose
positional (group, attribute) pairing is a permutation of the input
pairing — no pair is invented, dropped, or torn apart. -/
theorem sortGroups_perm {A : Type} (groups : List Group) (attributes : List A)
    (hlen : groups.length = attributes.length)
    (hkeys : ∀ g ∈ groups, g.sortKey ≠ SKey.tup []) :
    ∃ outG outA, sortGroups groups attributes = .ok (outG, outA) ∧
      outG.length = groups.length ∧ outA.length = attributes.length ∧
      List.Perm (outG.zip outA) (groups.zip attributes) := by
  rw [sortGroups_eq groups attributes hlen hkeys]
  refine ⟨_, _, rfl, ?_, ?_, ?_⟩
  all_goals
    have hA := (List.perm_insertionSort (tierARel (A := A))
      (tierAPanels (groups.zip attributes))).map (·.2)
    have hB := (List.perm_insertionSort (tierBRel (A := A))
      (tierBPanels (groups.zip attributes))).map (·.2)
    have hC := (List.perm_insertionSort (tierCRel (A := A))
      (tierCPanels (groups.zip attributes))).map (·.2)
    have hcomb := (hA.append hB).append hC
    rw [tierAPanels_map, tierBPanels_map, tierCPanels_map] at hcomb
    have hperm := hcomb.trans (filter3_perm (groups.zip attributes))
    have hplen := hperm.length_eq
    have hziplen : (groups.zip attributes).length = groups.length := by
      rw [List.length_zip groups attributes, hlen]
      exact Nat.min_self _
  · simpa using hplen.trans hziplen
  · simpa using (hplen.trans hziplen).trans hlen
  · rw [List.zip_map']
    simpa using hperm

/-- C10 witness: the permutation statement at two concrete groups. -/
theorem sortGroups_perm_witness :
    ∃ outG outA, sortGroups [gZeta, gAlpha] [(0 : Nat), 1] = .ok (outG, outA) ∧
      outG.length = 2 ∧ outA.length = 2 ∧
      List.Perm (outG.zip outA) ([gZeta, gAlpha].zip [0, 1]) :=
  sortGroups_perm [gZeta, gAlpha] [0, 1] rfl (by decide)

/-- C5: on equal-length inputs (whose sort keys do not make the source
raise), the output pairing of `sort_groups` is the concatenation of
exactly three segments: first a permutation of the groups with a
concrete non-sentinel leading sort key, internally ascending by
`(sort_key, name)`; then a permutation of the groups whose sort key is
an iterable led by the no-user-sort-key sentinel (or `None`),
internally ascending by `(remaining key tuple, name)`; and last a
permutation of the groups with no sort key at all, internally
ascending by name alone. -/
theorem sortGroups_tiers {A : Type} (groups : List Group) (attributes : List A)
    (hlen : groups.length = attributes.length)
    (hkeys : ∀ g ∈ groups, g.sortKey ≠ SKey.tup []) :
    ∃ outG outA la lb lc, sortGroups groups attributes = .ok (outG, outA) ∧
      outG.zip outA = la ++ lb ++ lc ∧
      List.Perm la ((groups.zip attributes).filter fun p =>
        !isTierC p.1.sortKey && !isTierB p.1.sortKey) ∧
      la.Pairwise (fun p q =>
        pairLe SKey.le strLe (p.1.sortKey, p.1.name) (q.1.sortKey, q.1.name) = true) ∧
      List.Perm lb ((groups.zip attributes).filter fun p => isTierB p.1.sortKey) ∧
      lb.Pairwise (fun p q => lexIfEq SAtom.le (tierBKey p.1) (tierBKey q.1) = true) ∧
      List.Perm lc ((groups.zip attributes).filter fun p => isTierC p.1.sortKey) ∧
      lc.Pairwise (fun p q => strLe p.1.name q.1.name = true) := by
  rw [sortGroups_eq groups attributes hlen hkeys]
  refine ⟨_, _,
    (List.insertionSort tierARel (tierAPanels (groups.zip attributes))).map (·.2),
    (List.insertionSort tierBRel (tierBPanels (groups.zip attributes))).map (·.2),
    (List.insertionSort tierCRel (tierCPanels (groups.zip attributes))).map (·.2),
    rfl, ?_, ?_, ?_, ?_, ?_, ?_, ?_⟩
  · rw [List.zip_map']
    simp only [Prod.mk.eta]
    exact List.map_id _
  · rw [← tierAPanels_map]
    exact (List.perm_insertionSort _ _).map _
  · rw [List.pairwise_map]
    have hs : (List.insertionSort tierARel (tierAPanels (groups.zip attributes))).Pairwise
        (tierARel (A := A)) :=
      List.sorted_insertionSort _ _
    refine hs.imp_of_mem ?_
    intro x y hx hy hr
    have hx' : x ∈ tierAPanels (groups.zip attributes) := (List.mem_insertionSort _).mp hx
    have hy' : y ∈ tierAPanels (groups.zip attributes) := (List.mem_insertionSort _).mp hy
    have hkx := tierAPanels_key hx'
    have hky := tierAPanels_key hy'
    unfold tierARel at hr
    rw [hkx, hky] at hr
    exact hr
  · rw [← tierBPanels_map]
    exact (List.perm_insertionSort _ _).map _
  · rw [List.pairwise_map]
    have hs : (List.insertionSort tierBRel (tierBPanels (groups.zip attributes))).Pairwise
        (tierBRel (A := A)) :=
      List.sorted_insertionSort _ _
    refine hs.imp_of_mem ?_
    intro x y hx hy hr
    have hx' : x ∈ tierBPanels (groups.zip attributes) := (List.mem_insertionSort _).mp hx
    have hy' : y ∈ tierBPanels (groups.zip attributes) := (List.mem_insertionSort _).mp hy
    have hkx := tierBPanels_key hx'
    have hky := tierBPanels_key hy'
    unfold tierBRel at hr
    rw [hkx, hky] at hr
    exact hr
  · rw [← tierCPanels_map]
    exact (List.perm_insertionSort _ _).map _
  · rw [List.pairwise_map]
    have hs : (List.insertionSort tierCRel (tierCPanels (groups.zip attributes))).Pairwise
        (tierCRel (A := A)) :=
      List.sorted_insertionSort _ _
    refine hs.imp_of_mem ?_
    intro x y hx hy hr
    have hx' : x ∈ tierCPanels (groups.zip attributes) := (List.mem_insertionSort _).mp hx
    have hy' : y ∈ tierCPanels (groups.zip attributes) := (List.mem_insertionSort _).mp hy
    have hkx := tierCPanels_key hx'
    have hky := tierCPanels_key hy'
    unfold tierCRel at hr
    rw [hkx, hky] at hr
    exact hr

/-- C5 witness: the tier statement applied at two concrete sentinel-key
groups, plus the concrete alphabetical-fallback output
`["Alpha", "Zeta"]`. -/
theorem sortGroups_tiers_witness :
    (∃ outG outA la lb lc, sortGroups [gZeta, gAlpha] [(0 : Nat), 1] = .ok (outG, outA) ∧
      outG.zip outA = la ++ lb ++ lc ∧
      List.Perm la (([gZeta, gAlpha].zip [0, 1]).filter fun p =>
        !isTierC p.1.sortKey && !isTierB p.1.sortKey) ∧
      la.Pairwise (fun p q =>
        pairLe SKey.le strLe (p.1.sortKey, p.1.name) (q.1.sortKey, q.1.name) = true) ∧
      List.Perm lb (([gZeta, gAlpha].zip [0, 1]).filter fun p => isTierB p.1.sortKey) ∧
      lb.Pairwise (fun p q => lexIfEq SAtom.le (tierBKey p.1) (tierBKey q.1) = true) ∧
      List.Perm lc (([gZeta, gAlpha].zip [0, 1]).filter fun p => isTierC p.1.sortKey) ∧
      lc.Pairwise (fun p q => strLe p.1.name q.1.name = true)) ∧
    sortGroups [gZeta, gAlpha] [(0 : Nat), 1] = .ok ([gAlpha, gZeta], [1, 0]) :=
  ⟨sortGroups_tiers [gZeta, gAlpha] [0, 1] rfl (by decide), rfl⟩

/-- C6 counterexample: two Groups sharing the name but differing in
`help` are not equal under the attrs-generated equality, so Group
equality is not determined solely by `name`. -/
theorem group_eq_claim_cex :
    gZeta.name = ({ gZeta with help := "other" } : Group).name ∧
    groupEqPy gZeta { gZeta with help := "other" } = false := by
  exact ⟨rfl, by decide⟩

/-- C6 (amended): `Group` declares no custom equality or hash, so the
attrs-generated equality compares the full field tuple — two Groups
are equal exactly when name, help, show, sort key, validators and
default parameter all agree — while group resolution separately
rejects, with an error, the registration of a Group whose name equals
that of an already-resolved Group with different object identity. -/
theorem group_eq_spec :
    (∀ a b : Group, groupEqPy a b = true ↔ a = b) ∧
    (∀ (resolved : List (Nat × Group)) (gid : Nat) (g : Group),
       (∃ x ∈ resolved, x.1 ≠ gid ∧ x.2.name = g.name) →
       registerGroup resolved gid g = .error ()) := by
  constructor
  · intro a b
    constructor
    · intro h
      simp only [groupEqPy, Bool.and_eq_true, decide_eq_true_eq] at h
      obtain ⟨⟨⟨⟨⟨h1, h2⟩, h3⟩, h4⟩, h5⟩, h6⟩ := h
      cases a
      cases b
      simp_all
    · intro h
      subst h
      simp [groupEqPy]
  · intro resolved gid g hx
    obtain ⟨x, hmem, hne, hname⟩ := hx
    have hany : (resolved.any fun x => x.1 ≠ gid && x.2.name = g.name) = true := by
      rw [List.any_eq_true]
      exact ⟨x, hmem, by simp [hne, hname]⟩
    unfold registerGroup
    rw [if_pos hany]

/-- C6 witness: the amended statement at concrete groups — structural
self-equality, and rejection of a distinct same-named registration. -/
theorem group_eq_spec_witness :
    groupEqPy gZeta gZeta = true ∧
    registerGroup [(0, gZeta)] 1 { gZeta with help := "other" } = .error () :=
  ⟨(group_eq_spec.1 gZeta gZeta).mpr rfl,
   group_eq_spec.2 [(0, gZeta)] 1 { gZeta with help := "other" }
     ⟨(0, gZeta), by simp, by decide, rfl⟩⟩

/-- C7 (code-bug evidence): the `has_tree_tokens=True` filter drops an
Argument whose subtree holds a token when the Argument itself holds
none, because line 944 tests `bool(x.tokens)` instead of
`x.n_tree_tokens` — contradicting the method's own docstring
("Argument and/or it's children have parsed tokens") and making
`has_tree_tokens` literally identical to `has_tokens`. -/
theorem filterBy_tree_tokens_bug :
    nTreeTokens parentArg = 1 ∧
    filterBy [parentArg] none (some true) none = [] ∧
    (∀ (ac : List ArgT) (b : Bool),
       filterBy ac (some b) none none = filterBy ac none (some b) none) :=
  ⟨rfl, rfl, fun _ _ => rfl⟩

/-- C9 (code-bug evidence): the structural-record validator names the
offending key(s) for extra keys (singular and plural messages) and
rejects a missing declared-required field, but the missing-field branch
raises the bare `ValueError` placeholder — carrying no message at all,
in particular no dot-joined ancestor prefix — at any nesting depth
(here: required field `b` of the nested TypedDict under key `a`). -/
theorem validateTypedDict_placeholder_bug :
    validateTypedDict outerTD (.obj [("a", .obj [("b", .atom)])]) [] = .ok () ∧
    validateTypedDict outerTD (.obj [("a", .obj []), ("z", .atom)]) [] =
      .error (.coercionKeySingular "z") ∧
    validateTypedDict outerTD (.obj [("y", .atom), ("z", .atom)]) [] =
      .error (.coercionKeysPlural ["y", "z"]) ∧
    validateTypedDict outerTD (.obj [("a", .obj [])]) [] = .error .bareValueError :=
  ⟨rfl, rfl, rfl, rfl⟩

end Cyclopts
